import Mathlib

/-!
Verification development for the coal-mine dead-man's-switch monitor.

The definitions below are a shallow embedding of the Python sources:

* `coal_mine/crontab_schedule.py` — the continuous crontab schedule
  (`CronTabSchedule`: `next_minute`, `round_up`, `schedule_iter`);
* `coal_mine/business_logic.py` — the canary lifecycle
  (`BusinessLogic`: `calculate_periodicity_delta`, `slug`, `add_history`,
  `create`, `update`, `trigger`, `pause`, `unpause`, `deadline_handler`);
* `coal_mine/memory_store.py` — the in-memory store (`MemoryStore`:
  `create`, `update`, `get`, `list`, `upcoming_deadlines`);
* `coal_mine/server.py` — the boolean query-parameter parsing
  (`boolean_parameters` / `handle_exceptions`).

Modelling conventions:

* Naive UTC datetimes are integers counting seconds since 1970-01-01
  (the epoch choice is irrelevant: only differences and calendar labels
  matter).  `datetime.timedelta` values are integer second counts.
* Python exceptions are modelled by `Option`/`none`: an operation that
  raises performs no mutation and yields `none`.
* The unbounded `while` loop of the endless schedule generator is given
  explicit fuel; running out of fuel is modelled as failure, so every
  theorem conditioned on success is about runs the generator completes.
* The cron fields of the external `parse-crontab` library are modelled
  for the forms the specification's cadence language exercises: `*` and
  a numeric literal.  A minute matches an entry iff every field matches
  its calendar label (the spec's activity-window rule).
-/

namespace CoalMine

/-! ## Calendar arithmetic (naive UTC)

Helper functions converting epoch seconds to the calendar labels that
crontab fields are matched against.  `daysFromCivil`/`civilFromDays` are
the standard Gregorian-calendar conversions. -/

/-- Days from 1970-01-01 to the civil date y-m-d (proleptic Gregorian). -/
def daysFromCivil (y m d : Int) : Int :=
  let y' := if m ≤ 2 then y - 1 else y
  let era := y'.ediv 400
  let yoe := y' - era * 400
  let mp := (m + 9).emod 12
  let doy := (153 * mp + 2).ediv 5 + d - 1
  let doe := yoe * 365 + yoe.ediv 4 - yoe.ediv 100 + doy
  era * 146097 + doe - 719468

/-- Civil date (year, month, day) of an epoch day count. -/
def civilFromDays (days : Int) : Int × Int × Int :=
  let z := days + 719468
  let era := z.ediv 146097
  let doe := z - era * 146097
  let yoe := (doe - doe.ediv 1460 + doe.ediv 36524 - doe.ediv 146096).ediv 365
  let y := yoe + era * 400
  let doy := doe - (365 * yoe + yoe.ediv 4 - yoe.ediv 100)
  let mp := (5 * doy + 2).ediv 153
  let d := doy - (153 * mp + 2).ediv 5 + 1
  let m := mp + (if mp < 10 then 3 else -9)
  (y + (if m ≤ 2 then 1 else 0), m, d)

/-- Epoch seconds of the naive UTC datetime y-mo-d h:mi:00. -/
def utc (y mo d h mi : Int) : Int :=
  daysFromCivil y mo d * 86400 + h * 3600 + mi * 60

/-- Minute-of-hour label of an epoch-seconds instant. -/
def minuteOfHour (t : Int) : Int := (t.ediv 60).emod 60

/-- Hour-of-day label of an epoch-seconds instant. -/
def hourOfDay (t : Int) : Int := (t.ediv 3600).emod 24

/-- Day-of-month label of an epoch-seconds instant. -/
def dayOfMonth (t : Int) : Int := (civilFromDays (t.ediv 86400)).2.2

/-- Month label of an epoch-seconds instant. -/
def monthOfYear (t : Int) : Int := (civilFromDays (t.ediv 86400)).2.1

/-- Day-of-week label (0 = Sunday) of an epoch-seconds instant. -/
def dayOfWeek (t : Int) : Int := ((t.ediv 86400) + 4).emod 7

namespace CronTabSchedule

/-- One crontab field: `*` or a numeric literal (the subset of the
external parse-crontab syntax that the cadence cases exercise). -/
inductive CronField where
  | star : CronField
  | num : Int → CronField
deriving DecidableEq

/-- One schedule entry: `minute hour day-of-month month day-of-week key`,
with the key (the crontab "command") already parsed as the number of
seconds it stands for (`float(number_string)` in
`calculate_periodicity_delta`'s validation loop). -/
structure CronEntry where
  minute : CronField
  hour : CronField
  dom : CronField
  month : CronField
  dow : CronField
  command : Int
deriving DecidableEq

/-- Does a crontab field match a calendar label? -/
def fieldMatches (f : CronField) (label : Int) : Bool :=
  match f with
  | .star => true
  | .num n => n == label

/-- Does the minute starting at epoch-seconds `t` match the entry
(`FastCronTab.next(now) == 60` for `now = t - 60`)? -/
def entryMatches (e : CronEntry) (t : Int) : Bool :=
  fieldMatches e.minute (minuteOfHour t) &&
  fieldMatches e.hour (hourOfDay t) &&
  fieldMatches e.dom (dayOfMonth t) &&
  fieldMatches e.month (monthOfYear t) &&
  fieldMatches e.dow (dayOfWeek t)

/-- The possible values of `smallest_change_gap`. -/
inductive ChangeGap where
  | oneMinute : ChangeGap
  | oneHour : ChangeGap
  | oneDay : ChangeGap
  | likeForever : ChangeGap
deriving DecidableEq

/-- The `timedelta` a gap stands for, in seconds (`LIKE_FOREVER` is 31
days). -/
def gapSeconds (g : ChangeGap) : Int :=
  match g with
  | .oneMinute => 60
  | .oneHour => 3600
  | .oneDay => 86400
  | .likeForever => 2678400

/-- The change gap contributed by one entry (`add_entry`). -/
def entryGap (e : CronEntry) : ChangeGap :=
  if e.minute ≠ .star then .oneMinute
  else if e.hour ≠ .star then .oneHour
  else if e.dom = .star ∧ e.month = .star ∧ e.dow = .star then .likeForever
  else .oneDay

/-- `min` of two gaps, by their duration (as `add_entry` folds it). -/
def gapMin (a b : ChangeGap) : ChangeGap :=
  if gapSeconds a ≤ gapSeconds b then a else b

/-- `smallest_change_gap` after all entries are added; `none` iff the
schedule has no entries. -/
def smallestChangeGap (entries : List CronEntry) : Option ChangeGap :=
  entries.foldl
    (fun acc e =>
      match acc with
      | none => some (entryGap e)
      | some g => some (gapMin g (entryGap e)))
    none

/-- The key of an entry index (`key_of`), as the parsed command value. -/
def keyOf (entries : List CronEntry) (i : Option Nat) : Option Int :=
  i.bind (fun j => (entries.get? j).map (·.command))

/-- `next_minute(now, multi=False)`: the single entry active in the
minute after `now`.  Outer `none` models the
`CronTabScheduleException` raised when several entries are active. -/
def next_minute (entries : List CronEntry) (now : Int) : Option (Option Nat) :=
  let now := now - now.emod 60
  let hits :=
    (entries.enum.filter (fun p => entryMatches p.2 (now + 60))).map (·.1)
  match hits with
  | [] => some none
  | [i] => some (some i)
  | _ => none

/-- `round_up`: `now` rounded up to the next possible change boundary. -/
def round_up (g : ChangeGap) (now : Int) : Int :=
  match g with
  | .oneMinute => now
  | .likeForever => now + 2678400
  | .oneHour => now + (60 - minuteOfHour now) * 60
  | .oneDay => now + (24 - hourOfDay now) * 3600 - minuteOfHour now * 60

/-- The loop of `schedule_iter(start, multi=False, endless=True)`,
with fuel, collecting yields until `count` of them are produced.
State: current window start, its key, and the candidate next start. -/
def scheduleIterGo (entries : List CronEntry) (g : ChangeGap) (count : Nat) :
    Nat → Int → Option Int → Int → List (Int × Int × Option Int) →
    Option (List (Int × Int × Option Int))
  | 0, _, _, _, _ => none
  | fuel + 1, curStart, curKey, nextStart, acc =>
    match next_minute entries (nextStart - 60) with
    | none => none
    | some newIdx =>
      let newKey := keyOf entries newIdx
      if newKey ≠ curKey ∨ g = .likeForever then
        let acc' := (curStart, nextStart - 60, curKey) :: acc
        if acc'.length = count then some acc'.reverse
        else
          scheduleIterGo entries g count fuel nextStart newKey
            (nextStart + gapSeconds g) acc'
      else
        scheduleIterGo entries g count fuel curStart curKey
          (nextStart + gapSeconds g) acc

/-- Fuel for the endless generator: far more minute-granularity steps
than the year-scale horizon the spec allows a schedule to need. -/
def iterFuel : Nat := 600000

/-- The first `count` yields of
`schedule_iter(start, multi=False, endless=True)`: tuples of
(window start, window end, active key), `none` on any raised
exception (empty schedule, overlapping entries) or fuel exhaustion. -/
def schedule_iter_yields (entries : List CronEntry) (start : Int)
    (count : Nat) : Option (List (Int × Int × Option Int)) :=
  match smallestChangeGap entries with
  | none => none
  | some g =>
    let curStart := start - start.emod 60
    match next_minute entries (curStart - 60) with
    | none => none
    | some ce =>
      scheduleIterGo entries g count iterFuel curStart (keyOf entries ce)
        (round_up g curStart) []

end CronTabSchedule

/-! ## Business logic: cadence evaluation -/

open CronTabSchedule

/-- A canary's periodicity: a number of seconds, or a parsed crontab
schedule (semicolon-delimited in the concrete syntax). -/
inductive Periodicity where
  | numeric : Int → Periodicity
  | crontab : List CronEntry → Periodicity
deriving DecidableEq

/-- `BusinessLogic.calculate_periodicity_delta(periodicity, whence)`:
the `timedelta` (in seconds) from `whence` to the next deadline, or
`none` for the `TypeError`s the source raises (non-positive numeric
cadence, empty schedule, non-positive command, overlapping entries).
The four window cases C1-C4 follow the source's comments. -/
def calculate_periodicity_delta (p : Periodicity) (whence : Int) : Option Int :=
  match p with
  | .numeric n => if n > 0 then some n else none
  | .crontab entries =>
    if entries = [] then none
    else if entries.all (fun e => e.command > 0) then
      match schedule_iter_yields entries whence 1 with
      | none => none
      | some ys1 =>
        match ys1.head? with
        | none => none
        | some y0 =>
          match y0.2.2 with
          | none =>
            -- Case 2: no currently active schedule.
            match (schedule_iter_yields entries whence 2).bind (·.get? 1) with
            | none => none
            | some y1 =>
              match y1.2.2 with
              | none => none
              | some cmd1 => some (y1.1 + cmd1 - whence)
          | some cmd0 =>
            if whence + cmd0 ≤ y0.2.1 then
              -- Case 1: still within the current window.
              some cmd0
            else
              match (schedule_iter_yields entries whence 2).bind (·.get? 1) with
              | none => none
              | some y1 =>
                match y1.2.2 with
                | none =>
                  -- Case 3: overflow into a gap; take the window after it.
                  match (schedule_iter_yields entries whence 3).bind
                      (·.get? 2) with
                  | none => none
                  | some y2 =>
                    match y2.2.2 with
                    | none => none
                    | some cmd2 => some (y2.1 + cmd2 - whence)
                | some cmd1 =>
                  -- Case 4: overflow into another active window.
                  some (max y1.1 (whence + cmd1) - whence)
    else none

/-! ## Canary records, patches, and the in-memory store

`memory_store.py` keeps canaries in a dict keyed by `canary['id']` and
applies updates key by key (a `None` value deletes the key).  Canaries
are rendered as a record; the one field business logic ever deletes is
`deadline`, so it is an `Option` and a patch entry `some none` is the
delete.  A `Patch` field left `none` is "key not in the updates dict".
The transient `periodicity_schedule` display annotation added by
`periodicity_schedule()` is presentation-only and not modelled. -/

structure Canary where
  id : String
  name : String
  slug : String
  description : String
  periodicity : Periodicity
  emails : List String
  late : Bool
  paused : Bool
  deadline : Option Int
  history : List (Int × String)
deriving DecidableEq

/-- The store: the dict's values in insertion order. -/
abbrev Store := List Canary

/-- An `updates` dict, field by field (`none` = key absent; for
`deadline`, `some none` = the key is present with value `None`, which
`MemoryStore.update` turns into a key deletion). -/
structure Patch where
  name : Option String := none
  slug : Option String := none
  description : Option String := none
  periodicity : Option Periodicity := none
  emails : Option (List String) := none
  late : Option Bool := none
  paused : Option Bool := none
  deadline : Option (Option Int) := none
  history : Option (List (Int × String)) := none
deriving DecidableEq

/-- `if not updates: raise ValueError` — is the updates dict empty? -/
def Patch.isEmpty (p : Patch) : Bool :=
  p.name.isNone && p.slug.isNone && p.description.isNone &&
  p.periodicity.isNone && p.emails.isNone && p.late.isNone &&
  p.paused.isNone && p.deadline.isNone && p.history.isNone

/-- The per-canary effect of `MemoryStore.update`'s loop: set every key
present in the patch (deleting `deadline` when its patch value is the
`None` sentinel), leave every other key alone. -/
def applyPatch (c : Canary) (p : Patch) : Canary :=
  { id := c.id
    name := p.name.getD c.name
    slug := p.slug.getD c.slug
    description := p.description.getD c.description
    periodicity := p.periodicity.getD c.periodicity
    emails := p.emails.getD c.emails
    late := p.late.getD c.late
    paused := p.paused.getD c.paused
    deadline := p.deadline.getD c.deadline
    history := p.history.getD c.history }

namespace MemoryStore

/-- `MemoryStore.get`: dict lookup by id (`deepcopy` is identity on
immutable values). -/
def get (st : Store) (identifier : String) : Option Canary :=
  st.find? (fun c => c.id = identifier)

/-- `MemoryStore.create`: `self.canaries[canary['id']] = deepcopy(canary)`
— plain dict assignment: replace in place if the id is present,
append otherwise.  No collision check of any kind. -/
def create (st : Store) (canary : Canary) : Store :=
  if st.any (fun c => c.id = canary.id) then
    st.map (fun c => if c.id = canary.id then canary else c)
  else st ++ [canary]

/-- `MemoryStore.update`: apply the updates dict to the canary stored
under `identifier` (raises `KeyError` on a missing id in Python; the
business-logic callers have already fetched the canary, so the id is
present there — mapping over non-matching entries is the identity). -/
def update (st : Store) (identifier : String) (p : Patch) : Store :=
  st.map (fun c => if c.id = identifier then applyPatch c p else c)

/-- `MemoryStore.find_identifier`: id of the first canary with the given
slug, `KeyError` (`none`) if there is none. -/
def find_identifier (st : Store) (slugValue : String) : Option String :=
  (st.find? (fun c => c.slug = slugValue)).map (·.id)

/-- `MemoryStore.upcoming_deadlines`: unpaused, not-late canaries sorted
ascending by deadline (Python's stable `sorted`; the sort key
`i['deadline']` raises `KeyError` when the deadline is absent, which the
`paused ⇔ deadline absent` invariant rules out for unpaused canaries —
`getD 0` is therefore never the value actually compared under that
invariant, which the theorems take as a hypothesis). -/
def upcoming_deadlines (st : Store) : List Canary :=
  let unpaused := st.filter (fun c => !c.paused)
  let active := unpaused.filter (fun c => !c.late)
  List.insertionSort (fun a b => a.deadline.getD 0 ≤ b.deadline.getD 0) active

/-- `MemoryStore.list` without the verbose projection: the filter
pipeline over the dict's values.  The regular expression is abstracted
as its match predicate `String → Bool` (`regex.search(...) is not
None`); the source applies it to `name`, `slug` and `id` only. -/
def list_filtered (st : Store) (paused late : Option Bool)
    (searchMatch : Option (String → Bool)) : List Canary :=
  let it := st
  let it := match paused with
    | none => it
    | some b => it.filter (fun c => c.paused == b)
  let it := match late with
    | none => it
    | some b => it.filter (fun c => c.late == b)
  match searchMatch with
  | none => it
  | some m => it.filter (fun c => m c.name || m c.slug || m c.id)

/-- An item yielded by `MemoryStore.list`: the full record when verbose,
else the two-key dict `{'id': ..., 'name': ...}`. -/
inductive ListItem where
  | full : Canary → ListItem
  | brief : String → String → ListItem
deriving DecidableEq

/-- `MemoryStore.list` with the verbose projection. -/
def listItems (st : Store) (verbose : Bool) (paused late : Option Bool)
    (searchMatch : Option (String → Bool)) : List ListItem :=
  let it := list_filtered st paused late searchMatch
  if verbose then it.map .full
  else it.map (fun c => .brief c.id c.name)

end MemoryStore

/-! ## Business logic: lifecycle operations

Each operation mirrors the corresponding `BusinessLogic` method.
Python's `datetime.datetime.utcnow()` readings within one operation are
modelled by the single parameter `now`; exceptions
(`CanaryNotFoundError`, `AlreadyExistsError`, `AlreadyPausedError`,
`AlreadyUnpausedError`, `TypeError`, `ValueError`) are `none`, and a
failed operation performs no store mutation. -/

namespace BusinessLogic

/-- `BusinessLogic.slug` restricted to one character: is the character
collapsed by `re.sub(r'[-\s_]+', '-', ...)`? -/
def isSepChar (c : Char) : Bool :=
  c = '-' || c = '_' || c = ' ' || c = '\t' || c = '\n' ||
  c = '\x0b' || c = '\x0c' || c = '\r'

/-- Is the character kept by `re.sub(r'[^-\w]+', '', ...)`?  (`\w` is
modelled as ASCII alphanumerics plus underscore, the character class the
spec names.) -/
def isKeptChar (c : Char) : Bool :=
  c = '-' || c.isAlphanum || c = '_'

/-- `re.sub(r'[-\s_]+', '-', ...)`: replace each maximal run of
separator characters by a single dash.  The flag records whether the
previous character was part of a separator run. -/
def collapseSeps : Bool → List Char → List Char
  | _, [] => []
  | prevSep, c :: rest =>
    if isSepChar c then
      if prevSep then collapseSeps true rest
      else '-' :: collapseSeps true rest
    else c :: collapseSeps false rest

/-- `BusinessLogic.slug` on a character list: lowercase, collapse
separator runs to `-`, strip everything else that is not a word
character. -/
def slugChars (l : List Char) : List Char :=
  (collapseSeps false (l.map Char.toLower)).filter isKeptChar

/-- `BusinessLogic.slug`. -/
def slug (name : String) : String := ⟨slugChars name.data⟩

/-- The guard of `add_history`'s trim loop:
`len(history) > 1000 or (len(history) > 100 and history[-1][0] < one_week_ago)`
with `one_week_ago = now - 7 days`. -/
def historyTrimCond (now : Int) (h : List (Int × String)) : Bool :=
  h.length > 1000 ||
    (h.length > 100 &&
      match h.getLast? with
      | some e => decide (e.1 < now - 604800)
      | none => false)

/-- The trim loop itself (`history.pop()` drops the tail); each
iteration shortens the list, so `h.length` fuel always suffices. -/
def trimHistory : Nat → Int → List (Int × String) → List (Int × String)
  | 0, _, h => h
  | fuel + 1, now, h =>
    if historyTrimCond now h then trimHistory fuel now h.dropLast else h

/-- `BusinessLogic.add_history`: prepend `(now, comment)`, then trim. -/
def add_history (now : Int) (comment : String) (history : List (Int × String)) :
    List (Int × String) :=
  let h := (now, comment) :: history
  trimHistory h.length now h

/-- `set(a) != set(b)` on email lists, negated. -/
def sameEmailSet (a b : List String) : Bool :=
  a.all (b.contains ·) && b.all (a.contains ·)

/-- `BusinessLogic.create`.  `create_identifier()` rejection-samples
until the id is absent from the store; the model takes the sampled id as
the `newId` argument and keeps the postcondition as the guard. -/
def create (st : Store) (newId : String) (now : Int) (name : String)
    (periodicity : Periodicity) (description : String)
    (emails : List String) (paused : Bool) : Option (Store × Canary) :=
  if (MemoryStore.get st newId).isSome then none
  else if name = "" then none
  else
    match MemoryStore.find_identifier st (slug name) with
    | some _ => none
    | none =>
      match calculate_periodicity_delta periodicity now with
      | none => none
      | some delta =>
        let history : List (Int × String) := [(now, "Canary created")]
        let deadline : Option Int :=
          if !paused then some (now + delta) else none
        let c : Canary :=
          { id := newId, name := name, slug := slug name
            description := description, periodicity := periodicity
            emails := emails, late := false, paused := paused
            deadline := deadline, history := history }
        some (MemoryStore.create st c, c)

/-- `BusinessLogic.trigger`: record the trigger in the history, push the
deadline out from the new head timestamp, clear `late` and `paused` when
set, and return `(was_late, was_paused)`. -/
def trigger (st : Store) (identifier : String) (comment : Option String)
    (now : Int) : Option (Store × Bool × Bool) :=
  match MemoryStore.get st identifier with
  | none => none
  | some canary =>
    let was_late := canary.late
    let was_paused := canary.paused
    let comment' :=
      match comment with
      | some s => if s ≠ "" then "Triggered (" ++ s ++ ")" else "Triggered"
      | none => "Triggered"
    let history := add_history now comment' canary.history
    match history.head? with
    | none => none
    | some h0 =>
      match calculate_periodicity_delta canary.periodicity h0.1 with
      | none => none
      | some delta =>
        let patch : Patch :=
          { history := some history
            deadline := some (some (h0.1 + delta))
            late := if canary.late then some false else none
            paused := if canary.paused then some false else none }
        some (MemoryStore.update st identifier patch, was_late, was_paused)

/-- `BusinessLogic.pause`: refuse when already paused, clear the
deadline (the `None` patch value deletes the field), clear `late` when
set. -/
def pause (st : Store) (identifier : String) (comment : Option String)
    (now : Int) : Option (Store × Canary) :=
  match MemoryStore.get st identifier with
  | none => none
  | some canary =>
    if canary.paused then none
    else
      let comment' :=
        match comment with
        | some s => if s ≠ "" then "Paused (" ++ s ++ ")" else "Paused"
        | none => "Paused"
      let history := add_history now comment' canary.history
      let patch : Patch :=
        { paused := some true
          history := some history
          deadline := some none
          late := if canary.late then some false else none }
      some (MemoryStore.update st identifier patch, applyPatch canary patch)

/-- `BusinessLogic.unpause`: refuse when not paused, recompute the
deadline from the new history head. -/
def unpause (st : Store) (identifier : String) (comment : Option String)
    (now : Int) : Option (Store × Canary) :=
  match MemoryStore.get st identifier with
  | none => none
  | some canary =>
    if !canary.paused then none
    else
      let comment' :=
        match comment with
        | some s => if s ≠ "" then "Unpaused (" ++ s ++ ")" else "Unpaused"
        | none => "Unpaused"
      let history := add_history now comment' canary.history
      match history.head? with
      | none => none
      | some h0 =>
        match calculate_periodicity_delta canary.periodicity h0.1 with
        | none => none
        | some delta =>
          let patch : Patch :=
            { paused := some false
              history := some history
              deadline := some (some (h0.1 + delta)) }
          some (MemoryStore.update st identifier patch,
            applyPatch canary patch)

/-- The name branch of `BusinessLogic.update`: on a changed name,
validate it, re-derive the slug, and check the new slug for collisions;
yields the (name, slug) entries of the updates dict.  The source calls
`self.find_identifier(new_slug)`, passing the new slug as the *name*
argument of `BusinessLogic.find_identifier`, which slugifies it once
more before the store lookup — hence the inner `slug newSlug`. -/
def update_name_step (st : Store) (canary : Canary) (nameArg : Option String) :
    Option (Option String × Option String) :=
  match nameArg with
  | none => some (none, none)
  | some nm =>
    if nm = canary.name then some (none, none)
    else if nm = "" then none
    else
      let newSlug := slug nm
      if canary.slug ≠ newSlug then
        match MemoryStore.find_identifier st (slug newSlug) with
        | some _ => none
        | none => some (some nm, some newSlug)
      else some (some nm, none)

/-- The periodicity branch of `BusinessLogic.update`: on a changed
periodicity, revalidate it and (when the canary is unpaused) recompute
the deadline from the history head, flipping `late` when the new
deadline crosses now; yields the (periodicity, deadline, late) entries
of the updates dict. -/
def update_periodicity_step (canary : Canary)
    (periodicityArg : Option Periodicity) (now : Int) :
    Option (Option Periodicity × Option (Option Int) × Option Bool) :=
  match periodicityArg with
  | none => some (none, none, none)
  | some p =>
    if p = canary.periodicity then some (none, none, none)
    else
      match calculate_periodicity_delta p now with
      | none => none
      | some _ =>
        if canary.paused then some (some p, none, none)
        else
          match canary.history.head? with
          | none => none
          | some h0 =>
            match calculate_periodicity_delta p h0.1 with
            | none => none
            | some delta =>
              let d := h0.1 + delta
              let isLate : Bool := decide (d < now)
              if isLate ≠ canary.late then
                some (some p, some (some d), some isLate)
              else some (some p, some (some d), none)

/-- `BusinessLogic.update`: apply the changed fields after validation
(the two involved branches are split out above). -/
def update (st : Store) (identifier : String) (nameArg : Option String)
    (periodicityArg : Option Periodicity) (descriptionArg : Option String)
    (emailsArg : Option (List String)) (now : Int) :
    Option (Store × Canary) :=
  match MemoryStore.get st identifier with
  | none => none
  | some canary =>
    match update_name_step st canary nameArg with
    | none => none
    | some (nameUpd, slugUpd) =>
      match update_periodicity_step canary periodicityArg now with
      | none => none
      | some (periodicityUpd, deadlineUpd, lateUpd) =>
        let descriptionUpd :=
          match descriptionArg with
          | none => none
          | some ds => if ds = canary.description then none else some ds
        let emailsUpd :=
          match emailsArg with
          | none => none
          | some es =>
            if sameEmailSet es canary.emails then none else some es
        let patch : Patch :=
          { name := nameUpd, slug := slugUpd
            periodicity := periodicityUpd, deadline := deadlineUpd
            late := lateUpd, description := descriptionUpd
            emails := emailsUpd }
        if patch.isEmpty then none
        else
          some (MemoryStore.update st identifier patch,
            applyPatch canary patch)

/-- The loop of `BusinessLogic.deadline_handler` over
`upcoming_deadlines()`: mark and notify every canary whose deadline has
passed, stop at the first one still in the future and rearm on it
(`schedule_next_deadline(canary)` leaves `current_alarm` at that
canary's deadline); exhausting the iterator leaves the alarm `none`.
Returns (store, notified canaries in processing order, alarm). -/
def deadline_handler_go (now : Int) :
    List Canary → Store → List Canary → Store × List Canary × Option Int
  | [], st, notified => (st, notified.reverse, none)
  | c :: rest, st, notified =>
    if c.deadline.getD 0 ≤ now then
      deadline_handler_go now rest
        (MemoryStore.update st c.id { late := some true })
        (applyPatch c { late := some true } :: notified)
    else (st, notified.reverse, some (c.deadline.getD 0))

/-- `BusinessLogic.deadline_handler` (the `SIGALRM` handler). -/
def deadline_handler (st : Store) (now : Int) :
    Store × List Canary × Option Int :=
  deadline_handler_go now (MemoryStore.upcoming_deadlines st) st []

end BusinessLogic

/-! ## Server: boolean query parameters

`server.py`'s `boolean_parameters` decorator parses each supplied
boolean query-parameter value; an unrecognized value raises, and
`handle_exceptions` turns any such exception into a
`400 Bad Request` response. -/

namespace Server

/-- ASCII `str.lower`, written over the character list so that it
evaluates inside the kernel. -/
def lowerString (s : String) : String := ⟨s.data.map Char.toLower⟩

/-- The per-value test of `boolean_parameters`:
`val.lower() in ('true', 'yes', '1')` → true,
`val.lower() in ('false', 'no', '0', '')` → false, else an exception. -/
def parse_boolean_value (val : String) : Option Bool :=
  if ["true", "yes", "1"].contains (lowerString val) then some true
  else if ["false", "no", "0", ""].contains (lowerString val) then some false
  else none

/-- A parsed boolean parameter routed through `handle_exceptions`: the
exception raised on an unrecognized value becomes a `400 Bad Request`
response. -/
def handle_boolean_value (val : String) : Except String Bool :=
  match parse_boolean_value val with
  | some b => Except.ok b
  | none => Except.error "400 Bad Request"

/-- What the spec sentence describes, lowercasing made explicit: the
amended contract `handle_boolean_value` is compared against. -/
def spec_boolean_value (val : String) : Except String Bool :=
  if ["true", "yes", "1"].contains (lowerString val) then Except.ok true
  else if ["false", "no", "0", ""].contains (lowerString val) then
    Except.ok false
  else Except.error "400 Bad Request"

end Server

/-! ## The raw dict view of `MemoryStore`

For the frame property of `MemoryStore.update` the canary is modelled
at the grain the source manipulates it: an insertion-ordered dict from
field names to values, where assigning an existing key overwrites in
place and `del` removes the pair. -/

namespace MemDict

/-- A stored field value (the payload type is irrelevant to the update
semantics; these constructors cover the canary fields). -/
inductive Value where
  | boolV : Bool → Value
  | intV : Int → Value
  | strV : String → Value
  | strListV : List String → Value
  | historyV : List (Int × String) → Value
deriving DecidableEq

/-- A canary as the open dict the source passes around. -/
abbrev Doc := List (String × Value)

/-- Dict lookup. -/
def dictGet (d : Doc) (k : String) : Option Value :=
  (d.find? (fun p => p.1 = k)).map (·.2)

/-- Dict assignment `d[k] = v`: overwrite in place, else append. -/
def dictSet (d : Doc) (k : String) (v : Value) : Doc :=
  if d.any (fun p => p.1 = k) then
    d.map (fun p => if p.1 = k then (k, v) else p)
  else d ++ [(k, v)]

/-- `del d[k]`. -/
def dictDel (d : Doc) (k : String) : Doc :=
  d.filter (fun p => p.1 ≠ k)

/-- The store: dict from identifier to canary dict. -/
abbrev DStore := List (String × Doc)

/-- One iteration of `MemoryStore.update`'s loop: a `None` value deletes
the key (the `if key in canary` guard makes the delete total), any other
value assigns it. -/
def applyItem (d : Doc) (kv : String × Option Value) : Doc :=
  match kv.2 with
  | none => dictDel d kv.1
  | some v => dictSet d kv.1 v

/-- `MemoryStore.update(identifier, updates)` on the dict view:
`KeyError` (`none`) when the identifier is unknown, else the stored
canary dict is mutated in place by the loop over `updates.items()`. -/
def update (st : DStore) (identifier : String)
    (updates : List (String × Option Value)) : Option DStore :=
  if st.any (fun p => p.1 = identifier) then
    some (st.map (fun p =>
      if p.1 = identifier then (p.1, updates.foldl applyItem p.2) else p))
  else none

/-- Store-level lookup. -/
def storeGet (st : DStore) (identifier : String) : Option Doc :=
  (st.find? (fun p => p.1 = identifier)).map (·.2)

end MemDict

/-! ## Concrete values used by individual claims -/

/-- The schedule `* 0 * * * 120` from the spec's cadence case table. -/
def schedHourZero : List CronTabSchedule.CronEntry :=
  [⟨.star, .num 0, .star, .star, .star, 120⟩]

/-- The schedule `* 0 * * * 120; * 1 * * * 600` from the cadence case
table. -/
def schedHourZeroOne : List CronTabSchedule.CronEntry :=
  [⟨.star, .num 0, .star, .star, .star, 120⟩,
   ⟨.star, .num 1, .star, .star, .star, 600⟩]

/-- Characters on which the slug derivation is actually idempotent:
ASCII alphanumerics, the separator class `[- _\s]`, and underscore. -/
def cleanChars : List Char :=
  ("abcdefghijklmnopqrstuvwxyzABCDEFGHIJKLMNOPQRSTUVWXYZ0123456789" ++
    "-_ \t\n\x0b\x0c\r").data

/-- A late, paused canary used to exercise `trigger`. -/
def canaryW4 : Canary :=
  { id := "abcdefgh", name := "Job", slug := "job", description := ""
    periodicity := .numeric 60, emails := [], late := true, paused := true
    deadline := none, history := [(0, "Canary created")] }

/-- The canary `canaryW4` after `trigger` at time 10. -/
def canaryW4' : Canary :=
  { id := "abcdefgh", name := "Job", slug := "job", description := ""
    periodicity := .numeric 60, emails := [], late := false, paused := false
    deadline := some 70
    history := [(10, "Triggered"), (0, "Canary created")] }

/-- A stored canary for the duplicate-insert counterexample. -/
def canaryW7a : Canary :=
  { id := "aaaaaaaa", name := "Foo", slug := "foo", description := ""
    periodicity := .numeric 60, emails := [], late := false, paused := false
    deadline := some 60, history := [(0, "Canary created")] }

/-- A canary with a fresh id but the same slug as `canaryW7a`. -/
def canaryW7b : Canary :=
  { id := "bbbbbbbb", name := "FOO", slug := "foo", description := ""
    periodicity := .numeric 60, emails := [], late := false, paused := false
    deadline := some 60, history := [(0, "Canary created")] }

/-- A canary with the same id as `canaryW7a` but a fresh slug. -/
def canaryW7c : Canary :=
  { id := "aaaaaaaa", name := "Bar", slug := "bar", description := ""
    periodicity := .numeric 60, emails := [], late := false, paused := false
    deadline := some 60, history := [(0, "Canary created")] }

/-- A canary whose only regex hit would be through its email address. -/
def canaryW8 : Canary :=
  { id := "abcdefgh", name := "Job", slug := "job", description := ""
    periodicity := .numeric 60, emails := ["ops@example.com"], late := false
    paused := false, deadline := some 60, history := [(0, "Canary created")] }

/-- One mutation step of the business logic: some lifecycle operation
(or the deadline handler) commits, taking the store from `st` to
`st'`. -/
def BLStep (st st' : Store) : Prop :=
  (∃ (newId : String) (now : Int) (name : String) (p : Periodicity)
      (description : String) (emails : List String) (paused : Bool)
      (c : Canary),
    BusinessLogic.create st newId now name p description emails paused =
      some (st', c)) ∨
  (∃ (identifier : String) (nameArg : Option String)
      (pArg : Option Periodicity) (descriptionArg : Option String)
      (emailsArg : Option (List String)) (now : Int) (c : Canary),
    BusinessLogic.update st identifier nameArg pArg descriptionArg emailsArg
      now = some (st', c)) ∨
  (∃ (identifier : String) (comment : Option String) (now : Int)
      (wl wp : Bool),
    BusinessLogic.trigger st identifier comment now = some (st', wl, wp)) ∨
  (∃ (identifier : String) (comment : Option String) (now : Int) (c : Canary),
    BusinessLogic.pause st identifier comment now = some (st', c)) ∨
  (∃ (identifier : String) (comment : Option String) (now : Int) (c : Canary),
    BusinessLogic.unpause st identifier comment now = some (st', c)) ∨
  (∃ now : Int, st' = (BusinessLogic.deadline_handler st now).1)

/-- The canary produced by `create` on an empty store at time 0 with
name `Foo` and numeric periodicity 60. -/
def canaryW3 : Canary :=
  { id := "abcdefgh", name := "Foo", slug := "foo", description := ""
    periodicity := .numeric 60, emails := [], late := false, paused := false
    deadline := some 60, history := [(0, "Canary created")] }

/-- Two live canaries for the deadline-handler witness: one already
past its deadline at time 10, one not. -/
def canaryW2a : Canary :=
  { id := "aaaaaaaa", name := "A", slug := "a", description := ""
    periodicity := .numeric 5, emails := [], late := false, paused := false
    deadline := some 5, history := [(0, "Canary created")] }

def canaryW2b : Canary :=
  { id := "bbbbbbbb", name := "B", slug := "b", description := ""
    periodicity := .numeric 90, emails := [], late := false, paused := false
    deadline := some 100, history := [(0, "Canary created")] }

/-- A canary dict and patch for the dict-level update witness. -/
def docW10 : MemDict.Doc :=
  [("late", .boolV false), ("deadline", .intV 70)]

def storeW10 : MemDict.DStore := [("abcdefgh", docW10)]

def patchW10 : List (String × Option MemDict.Value) :=
  [("late", some (.boolV true)), ("deadline", none)]

def storeW10' : MemDict.DStore :=
  [("abcdefgh", [("late", MemDict.Value.boolV true)])]

/-! # Theorems -/

/-! ## C1: the cadence case table -/

/-- C1: `calculate_periodicity_delta` realises the spec's literal
cadence case table: for `* 0 * * * 120` at 2016-06-30 01:00 UTC the
deadline is 2016-07-01 00:02 UTC (case C2) and at 2016-06-30 00:59 UTC
it is also 2016-07-01 00:02 UTC (case C3); for
`* 0 * * * 120; * 1 * * * 600` at 2016-06-30 00:59 UTC it is
2016-06-30 01:09 UTC (case C4); and for the numeric cadence 60 every
whence W yields W + 60 seconds (case C1). -/
theorem calculate_periodicity_delta_case_table :
    (∀ whence : Int,
      calculate_periodicity_delta (.numeric 60) whence = some 60) ∧
    calculate_periodicity_delta (.crontab schedHourZero)
        (utc 2016 6 30 1 0) =
      some (utc 2016 7 1 0 2 - utc 2016 6 30 1 0) ∧
    calculate_periodicity_delta (.crontab schedHourZero)
        (utc 2016 6 30 0 59) =
      some (utc 2016 7 1 0 2 - utc 2016 6 30 0 59) ∧
    calculate_periodicity_delta (.crontab schedHourZeroOne)
        (utc 2016 6 30 0 59) =
      some (utc 2016 6 30 1 9 - utc 2016 6 30 0 59) :=
  ⟨fun _ => rfl, by decide, by decide, by decide⟩

/-! ## C9: boolean query parameters -/

/-- C9 counterexample: the claim says any value string other than
`'true'`, `'yes'`, `'1'`, `'false'`, `'no'`, `'0'`, `''` fails with
400; but the code lowercases first, so the other value string `'TRUE'`
parses successfully to true. -/
theorem boolean_value_uppercase_parses :
    Server.handle_boolean_value "TRUE" = Except.ok true ∧
    "TRUE" ∉ ["true", "yes", "1"] ∧
    "TRUE" ∉ ["false", "no", "0", ""] :=
  ⟨rfl, by decide, by decide⟩

/-- C9 amended: boolean query-parameter values are matched
case-insensitively — a value whose lowercase form is `'true'`, `'yes'`
or `'1'` parses to true, one whose lowercase form is `'false'`, `'no'`,
`'0'` or `''` parses to false, and any other value makes the request
fail with 400 Bad Request. -/
theorem boolean_value_parsing_spec :
    ∀ val : String,
      Server.handle_boolean_value val = Server.spec_boolean_value val := by
  intro val
  unfold Server.handle_boolean_value Server.parse_boolean_value
    Server.spec_boolean_value
  by_cases h1 :
      (["true", "yes", "1"].contains (Server.lowerString val)) = true
  · rw [if_pos h1, if_pos h1]
  · rw [if_neg h1, if_neg h1]
    by_cases h2 :
        (["false", "no", "0", ""].contains (Server.lowerString val)) = true
    · rw [if_pos h2, if_pos h2]
    · rw [if_neg h2, if_neg h2]

/-! ## C5: history trimming -/

theorem historyTrimCond_false_of_nil (now : Int) :
    BusinessLogic.historyTrimCond now [] = false := by
  rfl

theorem historyTrimCond_length (now : Int) (h : List (Int × String))
    (hc : BusinessLogic.historyTrimCond now h = true) : 100 < h.length := by
  unfold BusinessLogic.historyTrimCond at hc
  rcases Bool.or_eq_true_iff.mp hc with h1 | h2
  · have := of_decide_eq_true h1
    omega
  · exact of_decide_eq_true (Bool.and_eq_true_iff.mp h2).1

theorem trimHistory_no_cond (now : Int) :
    ∀ fuel (h : List (Int × String)), h.length ≤ fuel →
      BusinessLogic.historyTrimCond now
        (BusinessLogic.trimHistory fuel now h) = false := by
  intro fuel
  induction fuel with
  | zero =>
    intro h hlen
    have : h = [] := List.eq_nil_of_length_eq_zero (Nat.le_zero.mp hlen)
    subst this
    exact historyTrimCond_false_of_nil now
  | succ f ih =>
    intro h hlen
    unfold BusinessLogic.trimHistory
    by_cases hc : BusinessLogic.historyTrimCond now h = true
    · rw [if_pos hc]
      apply ih
      have hlong := historyTrimCond_length now h hc
      rw [List.length_dropLast]
      omega
    · rw [if_neg hc]
      exact Bool.not_eq_true _ ▸ hc

theorem trimHistory_prefix (now : Int) :
    ∀ fuel (h : List (Int × String)),
      BusinessLogic.trimHistory fuel now h <+: h := by
  intro fuel
  induction fuel with
  | zero => intro h; exact List.prefix_refl h
  | succ f ih =>
    intro h
    unfold BusinessLogic.trimHistory
    by_cases hc : BusinessLogic.historyTrimCond now h = true
    · rw [if_pos hc]
      exact (ih h.dropLast).trans (List.dropLast_prefix h)
    · rw [if_neg hc]

/-- C5: after any history append, the history has at most 1000 entries,
it is not the case that it has more than 100 entries while its tail
(oldest) entry is more than 7 days older than now, and the trim only
pops entries from the tail (the result is a prefix of the freshly
prepended history) — the `or` arm of the loop guard may therefore keep
trimming a stale history down toward 100 entries. -/
theorem add_history_bounds (now : Int) (comment : String)
    (history : List (Int × String)) :
    (BusinessLogic.add_history now comment history).length ≤ 1000 ∧
    ¬(100 < (BusinessLogic.add_history now comment history).length ∧
      ∃ e, (BusinessLogic.add_history now comment history).getLast? = some e ∧
        e.1 < now - 604800) ∧
    BusinessLogic.add_history now comment history <+:
      (now, comment) :: history := by
  have hno : BusinessLogic.historyTrimCond now
      (BusinessLogic.add_history now comment history) = false :=
    trimHistory_no_cond now ((now, comment) :: history).length
      ((now, comment) :: history) le_rfl
  unfold BusinessLogic.historyTrimCond at hno
  rw [Bool.or_eq_false_iff] at hno
  obtain ⟨h1000, h100⟩ := hno
  refine ⟨?_, ?_, trimHistory_prefix now _ _⟩
  · have := of_decide_eq_false h1000
    omega
  · rintro ⟨hlen, e, hlast, hold⟩
    rw [Bool.and_eq_false_iff] at h100
    rcases h100 with h | h
    · exact absurd hlen (by simpa using of_decide_eq_false h)
    · rw [hlast] at h
      exact absurd hold (by simpa using h)

/-! ## C6: slug derivation -/

/-- C6 counterexample: the slug derivation is not idempotent on every
printable name — stripping `?` from `a-?-b` merges two separator runs,
so `slug "a-?-b" = "a--b"` while `slug "a--b" = "a-b"`. -/
theorem slug_not_idempotent :
    BusinessLogic.slug (BusinessLogic.slug "a-?-b") ≠
      BusinessLogic.slug "a-?-b" ∧
    BusinessLogic.slug "a-?-b" = "a--b" ∧
    BusinessLogic.slug "a--b" = "a-b" := by
  decide

theorem collapseSeps_cons_sep_true {c : Char}
    (h : BusinessLogic.isSepChar c = true) (rest : List Char) :
    BusinessLogic.collapseSeps true (c :: rest) =
      BusinessLogic.collapseSeps true rest := by
  simp [BusinessLogic.collapseSeps, h]

theorem collapseSeps_cons_sep_false {c : Char}
    (h : BusinessLogic.isSepChar c = true) (rest : List Char) :
    BusinessLogic.collapseSeps false (c :: rest) =
      '-' :: BusinessLogic.collapseSeps true rest := by
  simp [BusinessLogic.collapseSeps, h]

theorem collapseSeps_cons_nonsep (b : Bool) {c : Char}
    (h : BusinessLogic.isSepChar c = false) (rest : List Char) :
    BusinessLogic.collapseSeps b (c :: rest) =
      c :: BusinessLogic.collapseSeps false rest := by
  cases b <;> simp [BusinessLogic.collapseSeps, h]

theorem collapseSeps_mem (c : Char) :
    ∀ (b : Bool) (l : List Char), c ∈ BusinessLogic.collapseSeps b l →
      c = '-' ∨ (c ∈ l ∧ BusinessLogic.isSepChar c = false) := by
  intro b l
  induction l generalizing b with
  | nil => intro hc; cases hc
  | cons x rest ih =>
    intro hc
    unfold BusinessLogic.collapseSeps at hc
    by_cases hx : BusinessLogic.isSepChar x = true
    · rw [if_pos hx] at hc
      by_cases hb : b = true
      · rw [if_pos hb] at hc
        rcases ih true hc with h | ⟨hm, hs⟩
        · exact Or.inl h
        · exact Or.inr ⟨List.mem_cons_of_mem x hm, hs⟩
      · rw [if_neg hb] at hc
        rcases List.mem_cons.mp hc with rfl | hc'
        · exact Or.inl rfl
        · rcases ih true hc' with h | ⟨hm, hs⟩
          · exact Or.inl h
          · exact Or.inr ⟨List.mem_cons_of_mem x hm, hs⟩
    · rw [if_neg hx] at hc
      rcases List.mem_cons.mp hc with rfl | hc'
      · exact Or.inr ⟨List.mem_cons_self c rest, Bool.not_eq_true _ ▸ hx⟩
      · rcases ih false hc' with h | ⟨hm, hs⟩
        · exact Or.inl h
        · exact Or.inr ⟨List.mem_cons_of_mem x hm, hs⟩

theorem collapseSeps_idem :
    ∀ l : List Char,
      BusinessLogic.collapseSeps false (BusinessLogic.collapseSeps false l) =
        BusinessLogic.collapseSeps false l ∧
      BusinessLogic.collapseSeps true (BusinessLogic.collapseSeps true l) =
        BusinessLogic.collapseSeps true l := by
  intro l
  induction l with
  | nil => exact ⟨rfl, rfl⟩
  | cons x rest ih =>
    by_cases hx : BusinessLogic.isSepChar x = true
    · constructor
      · rw [collapseSeps_cons_sep_false hx,
          collapseSeps_cons_sep_false (show BusinessLogic.isSepChar '-' = true
            from rfl), ih.2]
      · rw [collapseSeps_cons_sep_true hx, ih.2]
    · have hx' : BusinessLogic.isSepChar x = false := by simpa using hx
      constructor
      · rw [collapseSeps_cons_nonsep false hx',
          collapseSeps_cons_nonsep false hx', ih.1]
      · rw [collapseSeps_cons_nonsep true hx',
          collapseSeps_cons_nonsep true hx', ih.1]

theorem cleanChars_toLower_fixed :
    ∀ c ∈ cleanChars, Char.toLower (Char.toLower c) = Char.toLower c := by
  decide

theorem cleanChars_lower_kept :
    ∀ c ∈ cleanChars,
      BusinessLogic.isSepChar (Char.toLower c) = true ∨
        BusinessLogic.isKeptChar (Char.toLower c) = true := by
  decide

theorem slugChars_fixed_on_clean (l : List Char)
    (hl : ∀ c ∈ l, c ∈ cleanChars) :
    BusinessLogic.slugChars (BusinessLogic.slugChars l) =
      BusinessLogic.slugChars l := by
  set r := BusinessLogic.collapseSeps false (l.map Char.toLower) with hr
  have hmem : ∀ c ∈ r, c = '-' ∨
      (c ∈ l.map Char.toLower ∧ BusinessLogic.isSepChar c = false) :=
    fun c hc => collapseSeps_mem c false _ hc
  have hkept : ∀ c ∈ r, BusinessLogic.isKeptChar c = true := by
    intro c hc
    rcases hmem c hc with rfl | ⟨hm, hs⟩
    · rfl
    · rcases List.mem_map.mp hm with ⟨c₀, hc₀, rfl⟩
      rcases cleanChars_lower_kept c₀ (hl c₀ hc₀) with h | h
      · rw [hs] at h; cases h
      · exact h
  have hfilter : r.filter BusinessLogic.isKeptChar = r :=
    List.filter_eq_self.mpr hkept
  have hlower : r.map Char.toLower = r := by
    have : ∀ c ∈ r, Char.toLower c = id c := by
      intro c hc
      rcases hmem c hc with rfl | ⟨hm, _⟩
      · rfl
      · rcases List.mem_map.mp hm with ⟨c₀, hc₀, rfl⟩
        exact cleanChars_toLower_fixed c₀ (hl c₀ hc₀)
    rw [List.map_congr_left this, List.map_id]
  have hcollapse : BusinessLogic.collapseSeps false r = r := by
    rw [hr]; exact (collapseSeps_idem (l.map Char.toLower)).1
  show BusinessLogic.slugChars (r.filter BusinessLogic.isKeptChar) = _
  rw [hfilter]
  unfold BusinessLogic.slugChars
  rw [hlower, hcollapse, hfilter]

/-- C6 amended: the slug derivation is idempotent on every name whose
characters are alphanumeric, dashes, underscores, or whitespace (so the
third rule strips nothing and no separator runs merge); for names with
other printable characters idempotence can fail (see the
counterexample). -/
theorem slug_idempotent_on_clean_names (name : String)
    (hname : ∀ c ∈ name.data, c ∈ cleanChars) :
    BusinessLogic.slug (BusinessLogic.slug name) =
      BusinessLogic.slug name := by
  show String.mk (BusinessLogic.slugChars (BusinessLogic.slugChars name.data)) =
    String.mk (BusinessLogic.slugChars name.data)
  rw [slugChars_fixed_on_clean name.data hname]

/-- C6 amended, witness: a concrete clean name. -/
theorem slug_idempotent_on_clean_names_witness :
    (∀ c ∈ ("My Canary_01").data, c ∈ cleanChars) ∧
    BusinessLogic.slug (BusinessLogic.slug "My Canary_01") =
      BusinessLogic.slug "My Canary_01" :=
  ⟨by decide, slug_idempotent_on_clean_names "My Canary_01" (by decide)⟩

/-! ## Store lemmas shared between claims -/

theorem applyPatch_id (c : Canary) (p : Patch) : (applyPatch c p).id = c.id :=
  rfl

theorem get_map_of_id_preserved (st : Store) (f : Canary → Canary)
    (hf : ∀ x, (f x).id = x.id) (idv : String) :
    MemoryStore.get (st.map f) idv = (MemoryStore.get st idv).map f := by
  unfold MemoryStore.get
  rw [List.find?_map]
  have hp : ((fun c : Canary => decide (c.id = idv)) ∘ f) =
      (fun c : Canary => decide (c.id = idv)) := by
    funext x
    simp [Function.comp, hf]
  rw [hp]

theorem get_update_self (st : Store) (idv : String) (p : Patch) (c : Canary)
    (hget : MemoryStore.get st idv = some c) :
    MemoryStore.get (MemoryStore.update st idv p) idv =
      some (applyPatch c p) := by
  unfold MemoryStore.update
  rw [get_map_of_id_preserved st _
    (fun x => by by_cases hx : x.id = idv <;> simp [hx, applyPatch_id]) idv]
  rw [hget]
  have hc : c.id = idv := by
    have := List.find?_some hget
    simpa using this
  simp [hc]

/-! ## C4: trigger returns prior flags and clears them -/

/-- C4: for a stored canary, a successful
`trigger(identifier, comment)` returns `(was_late, was_paused)` equal
to the canary's `late` and `paused` values before the call, and
afterwards the stored canary has `late = false` and `paused = false`. -/
theorem trigger_spec (st : Store) (identifier : String)
    (comment : Option String) (now : Int) (c : Canary) (st' : Store)
    (wl wp : Bool)
    (hget : MemoryStore.get st identifier = some c)
    (htr : BusinessLogic.trigger st identifier comment now =
      some (st', wl, wp)) :
    wl = c.late ∧ wp = c.paused ∧
    ∃ c', MemoryStore.get st' identifier = some c' ∧
      c'.late = false ∧ c'.paused = false := by
  unfold BusinessLogic.trigger at htr
  rw [hget] at htr
  dsimp only at htr
  split at htr
  · exact Option.noConfusion htr
  · split at htr
    · exact Option.noConfusion htr
    · injection htr with htr1
      have hst := congrArg Prod.fst htr1
      have hwl := congrArg (fun q : Store × Bool × Bool => q.2.1) htr1
      have hwp := congrArg (fun q : Store × Bool × Bool => q.2.2) htr1
      dsimp only at hst hwl hwp
      refine ⟨hwl.symm, hwp.symm, ?_⟩
      rw [← hst]
      refine ⟨applyPatch c _, get_update_self st identifier _ c hget, ?_, ?_⟩
      · show (if c.late = true then some false else none).getD c.late = false
        cases c.late <;> simp
      · show (if c.paused = true then some false else none).getD c.paused =
          false
        cases c.paused <;> simp

/-- C4 witness: a late, paused canary triggered at time 10. -/
theorem trigger_spec_witness :
    MemoryStore.get [canaryW4] "abcdefgh" = some canaryW4 ∧
    BusinessLogic.trigger [canaryW4] "abcdefgh" none 10 =
      some ([canaryW4'], true, true) ∧
    (true = canaryW4.late ∧ true = canaryW4.paused ∧
      ∃ c', MemoryStore.get [canaryW4'] "abcdefgh" = some c' ∧
        c'.late = false ∧ c'.paused = false) :=
  ⟨by decide, by decide,
    trigger_spec [canaryW4] "abcdefgh" none 10 canaryW4 [canaryW4'] true true
      (by decide) (by decide)⟩

/-! ## C7: store create and collisions -/

/-- C7 counterexample: `MemoryStore.create` performs no uniqueness
check — inserting a canary whose slug collides with a stored one
succeeds and keeps both, and inserting one whose id collides succeeds
and silently replaces the stored canary. -/
theorem store_create_accepts_collisions :
    MemoryStore.create [canaryW7a] canaryW7b = [canaryW7a, canaryW7b] ∧
    canaryW7b.slug = canaryW7a.slug ∧
    MemoryStore.create [canaryW7a] canaryW7c = [canaryW7c] ∧
    canaryW7c.id = canaryW7a.id ∧
    canaryW7c ≠ canaryW7a := by
  decide

/-- C7 amended: the in-memory store's `create(c)` never rejects: it is
plain dict assignment keyed by `c.id` — an existing canary with the
same id is replaced by (a copy of) the input, any other canary is kept,
and duplicate slugs are accepted (id and slug uniqueness are enforced
upstream by the business-logic layer and, in the Mongo store, by unique
indexes). -/
theorem store_create_insert_or_replace (st : Store) (c : Canary)
    (idv : String) :
    MemoryStore.get (MemoryStore.create st c) idv =
      if idv = c.id then some c else MemoryStore.get st idv := by
  unfold MemoryStore.create
  by_cases hin : (st.any (fun x => x.id = c.id)) = true
  · rw [if_pos hin]
    rw [get_map_of_id_preserved st (fun x => if x.id = c.id then c else x)
      (fun x => by by_cases hx : x.id = c.id <;> simp [hx]) idv]
    by_cases hid : idv = c.id
    · rw [if_pos hid]
      have hsome : (List.find? (fun x : Canary => x.id = idv) st).isSome := by
        rw [List.find?_isSome]
        obtain ⟨x, hx, hpx⟩ := List.any_eq_true.mp hin
        refine ⟨x, hx, ?_⟩
        rw [hid]
        exact hpx
      obtain ⟨y, hy⟩ := Option.isSome_iff_exists.mp hsome
      show ((MemoryStore.get st idv).map _) = some c
      unfold MemoryStore.get
      rw [hy]
      have hyid : y.id = c.id := by
        have := List.find?_some hy
        simp at this
        rw [this, hid]
      simp [hyid]
    · rw [if_neg hid]
      cases hy : MemoryStore.get st idv with
      | none => rfl
      | some y =>
        have hyid : y.id = idv := by
          have := List.find?_some hy
          simpa using this
        have hne : ¬(y.id = c.id) := fun hcon => hid (by rw [← hyid, hcon])
        simp [hne]
  · rw [if_neg hin]
    unfold MemoryStore.get
    rw [List.find?_append]
    by_cases hid : idv = c.id
    · rw [if_pos hid]
      have hnone : List.find? (fun x : Canary => x.id = idv) st = none := by
        rw [List.find?_eq_none]
        intro x hx hpx
        apply hin
        refine List.any_eq_true.mpr ⟨x, hx, ?_⟩
        rw [← hid]
        exact hpx
      rw [hnone]
      simp [List.find?, hid]
    · rw [if_neg hid]
      have hsingle : List.find? (fun x : Canary => x.id = idv) [c] = none := by
        rw [List.find?_eq_none]
        intro x hx hpx
        rcases List.mem_singleton.mp hx with rfl
        have hx' : x.id = idv := by simpa using hpx
        exact hid (hx' ▸ rfl)
      rw [hsingle, Option.or_none]

/-! ## C8: the list operation's search predicate -/

/-- C8 counterexample: the in-memory store's `list` does not search
emails — a regex predicate that matches only a canary's email address
yields nothing, although the claim says a match on an email suffices. -/
theorem list_search_ignores_emails :
    MemoryStore.list_filtered [canaryW8] none none
      (some (fun s => s == "ops@example.com")) = [] ∧
    (fun s => s == "ops@example.com") "ops@example.com" = true ∧
    canaryW8.emails = ["ops@example.com"] ∧
    canaryW8 ∈ [canaryW8] ∧
    (fun s => s == "ops@example.com") canaryW8.name = false ∧
    (fun s => s == "ops@example.com") canaryW8.slug = false ∧
    (fun s => s == "ops@example.com") canaryW8.id = false := by
  decide

/-- C8 amended: for every stored canary and regex supplied to the
in-memory store's list operation, the canary is yielded iff it
satisfies the other supplied predicates and the regex matches its name,
its slug, or its id — emails are not searched (the Mongo store's query
additionally searches emails). -/
theorem list_filtered_search_mem (st : Store) (pausedArg lateArg : Option Bool)
    (m : String → Bool) (c : Canary) :
    c ∈ MemoryStore.list_filtered st pausedArg lateArg (some m) ↔
      c ∈ st ∧
      (match pausedArg with | none => True | some b => c.paused = b) ∧
      (match lateArg with | none => True | some b => c.late = b) ∧
      (m c.name = true ∨ m c.slug = true ∨ m c.id = true) := by
  unfold MemoryStore.list_filtered
  cases pausedArg <;> cases lateArg <;>
    simp [List.mem_filter, Bool.or_eq_true] <;> tauto

/-! ## C10: the dict-level frame property of `MemoryStore.update` -/

theorem find?_fst_map {β : Type} (l : List (String × β))
    (f : String × β → String × β) (hf : ∀ p, (f p).1 = p.1) (k : String) :
    List.find? (fun p => p.1 = k) (l.map f) =
      (List.find? (fun p => p.1 = k) l).map f := by
  rw [List.find?_map]
  have hp : ((fun p : String × β => decide (p.1 = k)) ∘ f) =
      (fun p : String × β => decide (p.1 = k)) := by
    funext p
    simp [Function.comp, hf]
  rw [hp]

theorem dictGet_dictSet_self (d : MemDict.Doc) (k : String)
    (v : MemDict.Value) : MemDict.dictGet (MemDict.dictSet d k v) k = some v := by
  unfold MemDict.dictGet MemDict.dictSet
  by_cases hin : (d.any (fun p => p.1 = k)) = true
  · rw [if_pos hin]
    rw [find?_fst_map d (fun p => if p.1 = k then (k, v) else p)
      (fun p => by by_cases hp : p.1 = k <;> simp [hp]) k]
    have hsome : (List.find? (fun p : String × MemDict.Value => p.1 = k)
        d).isSome := by
      rw [List.find?_isSome]
      obtain ⟨p, hp, hpk⟩ := List.any_eq_true.mp hin
      exact ⟨p, hp, hpk⟩
    obtain ⟨q, hq⟩ := Option.isSome_iff_exists.mp hsome
    rw [hq]
    have hqk : q.1 = k := by simpa using List.find?_some hq
    simp [hqk]
  · rw [if_neg hin]
    rw [List.find?_append]
    have hnone : List.find? (fun p : String × MemDict.Value => p.1 = k)
        d = none := by
      rw [List.find?_eq_none]
      intro p hp hpk
      exact hin (List.any_eq_true.mpr ⟨p, hp, hpk⟩)
    rw [hnone]
    simp [List.find?]

theorem dictGet_dictSet_ne (d : MemDict.Doc) (k k' : String)
    (v : MemDict.Value) (hne : k' ≠ k) :
    MemDict.dictGet (MemDict.dictSet d k v) k' = MemDict.dictGet d k' := by
  unfold MemDict.dictGet MemDict.dictSet
  by_cases hin : (d.any (fun p => p.1 = k)) = true
  · rw [if_pos hin]
    rw [find?_fst_map d (fun p => if p.1 = k then (k, v) else p)
      (fun p => by by_cases hp : p.1 = k <;> simp [hp]) k']
    cases hq : List.find? (fun p : String × MemDict.Value => p.1 = k') d with
    | none => rfl
    | some q =>
      have hqk : q.1 = k' := by simpa using List.find?_some hq
      have : ¬(q.1 = k) := fun hcon => hne (by rw [← hqk, hcon])
      simp [this]
  · rw [if_neg hin]
    rw [List.find?_append]
    have hsingle : List.find? (fun p : String × MemDict.Value => p.1 = k')
        [(k, v)] = none := by
      rw [List.find?_eq_none]
      intro p hp hpk
      rcases List.mem_singleton.mp hp with rfl
      have hk' : k = k' := by simpa using hpk
      exact hne hk'.symm
    rw [hsingle, Option.or_none]

theorem dictGet_dictDel_self (d : MemDict.Doc) (k : String) :
    MemDict.dictGet (MemDict.dictDel d k) k = none := by
  unfold MemDict.dictGet MemDict.dictDel
  have hnone : List.find? (fun p : String × MemDict.Value => p.1 = k)
      (d.filter (fun p => p.1 ≠ k)) = none := by
    rw [List.find?_eq_none]
    intro p hp hpk
    have := (List.mem_filter.mp hp).2
    simp at this hpk
    exact this hpk
  rw [hnone]
  rfl

theorem dictGet_dictDel_ne (d : MemDict.Doc) (k k' : String) (hne : k' ≠ k) :
    MemDict.dictGet (MemDict.dictDel d k) k' = MemDict.dictGet d k' := by
  unfold MemDict.dictGet MemDict.dictDel
  induction d with
  | nil => rfl
  | cons p t ih =>
    by_cases h1 : p.1 = k
    · have h2 : ¬(p.1 = k') := fun hcon => hne (by rw [← hcon, h1])
      rw [List.filter_cons]
      simp only [h1]
      rw [List.find?_cons]
      simp only [h2]
      simpa using ih
    · rw [List.filter_cons]
      simp only [decide_not]
      rw [if_pos (by simpa using h1)]
      rw [List.find?_cons, List.find?_cons]
      by_cases h2 : p.1 = k'
      · simp [h2]
      · simp only [decide_eq_false h2]
        simpa using ih

theorem dictGet_applyItem_ne (d : MemDict.Doc) (kv : String × Option MemDict.Value)
    (k : String) (hne : k ≠ kv.1) :
    MemDict.dictGet (MemDict.applyItem d kv) k = MemDict.dictGet d k := by
  unfold MemDict.applyItem
  cases kv.2 with
  | none => exact dictGet_dictDel_ne d kv.1 k hne
  | some v => exact dictGet_dictSet_ne d kv.1 k v hne

theorem foldl_applyItem_get :
    ∀ (us : List (String × Option MemDict.Value)) (d : MemDict.Doc)
      (k : String), (us.map Prod.fst).Nodup →
      MemDict.dictGet (us.foldl MemDict.applyItem d) k =
        (match us.find? (fun kv => kv.1 = k) with
         | some (_, some v) => some v
         | some (_, none) => none
         | none => MemDict.dictGet d k) := by
  intro us
  induction us with
  | nil => intro d k _; rfl
  | cons kv rest ih =>
    intro d k hnd
    have hnd' : (rest.map Prod.fst).Nodup := by
      rw [List.map_cons] at hnd
      exact (List.nodup_cons.mp hnd).2
    have hnotin : kv.1 ∉ rest.map Prod.fst := by
      rw [List.map_cons] at hnd
      exact (List.nodup_cons.mp hnd).1
    rw [List.foldl_cons, ih _ _ hnd']
    by_cases hk : kv.1 = k
    · have hrest : List.find?
          (fun kv' : String × Option MemDict.Value => kv'.1 = k) rest =
          none := by
        rw [List.find?_eq_none]
        intro kv' hkv' hpk
        apply hnotin
        rw [show kv.1 = kv'.1 from by
          have := of_decide_eq_true hpk
          rw [hk, this]]
        exact List.mem_map_of_mem Prod.fst hkv'
      rw [hrest]
      rw [List.find?_cons]
      simp only [decide_eq_true hk]
      rcases kv with ⟨k₀, v?⟩
      cases v? with
      | none =>
        show MemDict.dictGet (MemDict.dictDel d k₀) k = none
        rw [show k₀ = k from hk]
        exact dictGet_dictDel_self d k
      | some v =>
        show MemDict.dictGet (MemDict.dictSet d k₀ v) k = some v
        rw [show k₀ = k from hk]
        exact dictGet_dictSet_self d k v
    · rw [List.find?_cons]
      simp only [show (decide (kv.1 = k)) = false from decide_eq_false hk]
      rw [dictGet_applyItem_ne d kv k (fun hcon => hk hcon.symm)]

/-- C10: the in-memory store's `update(identifier, patch)`, viewed at
the dict level, modifies exactly the keys named in the patch — setting
every key whose patch value is non-`None` and deleting every key whose
patch value is `None` — while every key of that canary not named in the
patch, and every other canary in the store, is left unchanged. -/
theorem memory_update_frame (st : MemDict.DStore) (identifier : String)
    (us : List (String × Option MemDict.Value)) (st' : MemDict.DStore)
    (d : MemDict.Doc)
    (hnd : (us.map Prod.fst).Nodup)
    (hup : MemDict.update st identifier us = some st')
    (hget : MemDict.storeGet st identifier = some d) :
    (∀ id', id' ≠ identifier →
      MemDict.storeGet st' id' = MemDict.storeGet st id') ∧
    MemDict.storeGet st' identifier =
      some (us.foldl MemDict.applyItem d) ∧
    (∀ k, MemDict.dictGet (us.foldl MemDict.applyItem d) k =
      (match us.find? (fun kv => kv.1 = k) with
       | some (_, some v) => some v
       | some (_, none) => none
       | none => MemDict.dictGet d k)) := by
  unfold MemDict.update at hup
  by_cases hin : (st.any (fun p => p.1 = identifier)) = true
  · rw [if_pos hin] at hup
    injection hup with hup
    have hf : ∀ p : String × MemDict.Doc,
        ((fun p : String × MemDict.Doc =>
          if p.1 = identifier then (p.1, us.foldl MemDict.applyItem p.2)
          else p) p).1 = p.1 := by
      intro p
      by_cases hp : p.1 = identifier <;> simp [hp]
    refine ⟨?_, ?_, fun k => foldl_applyItem_get us d k hnd⟩
    · intro id' hne
      rw [← hup]
      unfold MemDict.storeGet
      rw [find?_fst_map st _ hf id']
      cases hq : List.find? (fun p : String × MemDict.Doc => p.1 = id') st with
      | none => rfl
      | some q =>
        have hqk : q.1 = id' := by simpa using List.find?_some hq
        have : ¬(q.1 = identifier) := fun hcon => hne (by rw [← hqk, hcon])
        simp [this]
    · rw [← hup]
      unfold MemDict.storeGet at hget ⊢
      rw [find?_fst_map st _ hf identifier]
      obtain ⟨q, hq, hq2⟩ := Option.map_eq_some'.mp hget
      rw [hq]
      have hqk : q.1 = identifier := by simpa using List.find?_some hq
      simp [hqk, hq2]
  · rw [if_neg hin] at hup
    exact Option.noConfusion hup

/-- C10 witness: a concrete canary dict patched with one set and one
delete. -/
theorem memory_update_frame_witness :
    (patchW10.map Prod.fst).Nodup ∧
    MemDict.update storeW10 "abcdefgh" patchW10 = some storeW10' ∧
    MemDict.storeGet storeW10 "abcdefgh" = some docW10 ∧
    ((∀ id', id' ≠ "abcdefgh" →
        MemDict.storeGet storeW10' id' = MemDict.storeGet storeW10 id') ∧
      MemDict.storeGet storeW10' "abcdefgh" =
        some (patchW10.foldl MemDict.applyItem docW10) ∧
      (∀ k, MemDict.dictGet (patchW10.foldl MemDict.applyItem docW10) k =
        (match patchW10.find? (fun kv => kv.1 = k) with
         | some (_, some v) => some v
         | some (_, none) => none
         | none => MemDict.dictGet docW10 k))) :=
  ⟨by decide, by decide, by decide,
    memory_update_frame storeW10 "abcdefgh" patchW10 storeW10' docW10
      (by decide) (by decide) (by decide)⟩

/-! ## C2: the deadline handler -/

theorem deadline_handler_go_eq (now : Int) :
    ∀ (l : List Canary) (st : Store) (acc : List Canary),
      BusinessLogic.deadline_handler_go now l st acc =
        ((l.takeWhile (fun c => decide (c.deadline.getD 0 ≤ now))).foldl
            (fun s c => MemoryStore.update s c.id { late := some true }) st,
         acc.reverse ++
           (l.takeWhile (fun c => decide (c.deadline.getD 0 ≤ now))).map
             (fun c => applyPatch c { late := some true }),
         ((l.dropWhile
             (fun c => decide (c.deadline.getD 0 ≤ now))).head?).map
           (fun c => c.deadline.getD 0)) := by
  intro l
  induction l with
  | nil => intro st acc; simp [BusinessLogic.deadline_handler_go]
  | cons c rest ih =>
    intro st acc
    unfold BusinessLogic.deadline_handler_go
    rw [List.takeWhile_cons, List.dropWhile_cons]
    by_cases hc : c.deadline.getD 0 ≤ now
    · rw [if_pos hc, ih]
      rw [decide_eq_true hc]
      simp
    · rw [if_neg hc]
      rw [decide_eq_false hc]
      simp

theorem foldl_update_eq_map (p : Patch) :
    ∀ (P : List Canary) (st : Store),
      ((P.map (fun c => c.id)).Nodup) →
      P.foldl (fun s c => MemoryStore.update s c.id p) st =
        st.map (fun c =>
          if c.id ∈ P.map (fun x => x.id) then applyPatch c p else c) := by
  intro P
  induction P with
  | nil =>
    intro st _
    simp
  | cons q P' ih =>
    intro st hnd
    rw [List.map_cons] at hnd
    obtain ⟨hq, hnd'⟩ := List.nodup_cons.mp hnd
    rw [List.foldl_cons]
    show List.foldl _ (MemoryStore.update st q.id p) P' = _
    rw [ih _ hnd']
    unfold MemoryStore.update
    rw [List.map_map, List.map_cons]
    apply List.map_congr_left
    intro c _
    simp only [Function.comp_apply]
    by_cases hcq : c.id = q.id
    · rw [if_pos hcq]
      rw [if_neg (show (applyPatch c p).id ∉ P'.map (fun x => x.id) from by
        rw [applyPatch_id, hcq]; exact hq)]
      rw [if_pos (show c.id ∈ q.id :: P'.map (fun x => x.id) from by
        rw [hcq]; exact List.mem_cons_self _ _)]
    · rw [if_neg hcq]
      by_cases hm : c.id ∈ P'.map (fun x => x.id)
      · rw [if_pos hm, if_pos (List.mem_cons_of_mem _ hm)]
      · rw [if_neg hm,
          if_neg (fun hmem => (List.mem_cons.mp hmem).elim hcq hm)]

theorem mem_takeWhile_of_sorted (now : Int) :
    ∀ (l : List Canary),
      List.Sorted (fun a b : Canary =>
        a.deadline.getD 0 ≤ b.deadline.getD 0) l →
      ∀ c ∈ l, c.deadline.getD 0 ≤ now →
        c ∈ l.takeWhile (fun x => decide (x.deadline.getD 0 ≤ now)) := by
  intro l
  induction l with
  | nil => intro _ c hc; cases hc
  | cons a t ih =>
    intro hs c hc hcd
    rw [List.takeWhile_cons]
    by_cases ha : a.deadline.getD 0 ≤ now
    · rw [decide_eq_true ha, if_pos rfl]
      rcases List.mem_cons.mp hc with rfl | hct
      · exact List.mem_cons_self _ _
      · exact List.mem_cons_of_mem _ (ih hs.of_cons c hct hcd)
    · exfalso
      rcases List.mem_cons.mp hc with rfl | hct
      · exact ha hcd
      · exact ha (le_trans (List.rel_of_sorted_cons hs c hct) hcd)

theorem upcoming_deadlines_sorted (st : Store) :
    List.Sorted (fun a b : Canary =>
      a.deadline.getD 0 ≤ b.deadline.getD 0)
      (MemoryStore.upcoming_deadlines st) := by
  haveI : IsTotal Canary (fun a b : Canary =>
      a.deadline.getD 0 ≤ b.deadline.getD 0) := ⟨fun a b => le_total _ _⟩
  haveI : IsTrans Canary (fun a b : Canary =>
      a.deadline.getD 0 ≤ b.deadline.getD 0) :=
    ⟨fun _ _ _ hab hbc => le_trans hab hbc⟩
  exact List.sorted_insertionSort _ _

theorem upcoming_deadlines_perm (st : Store) :
    (MemoryStore.upcoming_deadlines st).Perm
      ((st.filter (fun c => !c.paused)).filter (fun c => !c.late)) :=
  List.perm_insertionSort _ _

theorem mem_upcoming_deadlines (st : Store) (c : Canary) :
    c ∈ MemoryStore.upcoming_deadlines st ↔
      c ∈ st ∧ c.paused = false ∧ c.late = false := by
  rw [(upcoming_deadlines_perm st).mem_iff]
  simp only [List.mem_filter, and_assoc, Bool.not_eq_true']

/-- C2: when the deadline timer fires at `now`, the handler sets
`late := true` on exactly the stored canaries with `paused = false`,
`late = false` and deadline at most `now` (leaving every other canary,
and every other field, unchanged), notifies exactly those canaries in
ascending deadline order (it walks `upcoming_deadlines` and stops at
the first canary whose deadline is still in the future), and rearms the
alarm on that first future deadline — `none` when the iterator is
exhausted.  Under the `paused ⇔ deadline absent` invariant the sort key
`deadline.getD 0` is the canary's actual deadline for every canary the
handler touches. -/
theorem deadline_handler_spec (st : Store) (now : Int)
    (hnd : (st.map (fun c => c.id)).Nodup)
    (hinv : ∀ c ∈ st, c.paused = true ↔ c.deadline = none) :
    (BusinessLogic.deadline_handler st now).1 =
      st.map (fun c =>
        if c.paused = false ∧ c.late = false ∧ c.deadline.getD 0 ≤ now
        then applyPatch c { late := some true } else c) ∧
    (BusinessLogic.deadline_handler st now).2.1 =
      ((MemoryStore.upcoming_deadlines st).takeWhile
          (fun c => decide (c.deadline.getD 0 ≤ now))).map
        (fun c => applyPatch c { late := some true }) ∧
    List.Pairwise (fun a b : Canary =>
        a.deadline.getD 0 ≤ b.deadline.getD 0)
      (BusinessLogic.deadline_handler st now).2.1 ∧
    (BusinessLogic.deadline_handler st now).2.2 =
      (((MemoryStore.upcoming_deadlines st).dropWhile
          (fun c => decide (c.deadline.getD 0 ≤ now))).head?).map
        (fun c => c.deadline.getD 0) ∧
    (∀ c' ∈ (BusinessLogic.deadline_handler st now).2.1,
      ∃ d, c'.deadline = some d ∧ d ≤ now) := by
  have hgo := deadline_handler_go_eq now (MemoryStore.upcoming_deadlines st)
    st []
  have hsorted := upcoming_deadlines_sorted st
  -- Nodup of the ids of the processed prefix
  have hsubl : ((MemoryStore.upcoming_deadlines st).takeWhile
      (fun c => decide (c.deadline.getD 0 ≤ now))).Sublist
      (MemoryStore.upcoming_deadlines st) := List.takeWhile_sublist _
  have hactive_subl :
      ((st.filter (fun c => !c.paused)).filter (fun c => !c.late)).Sublist
        st := (List.filter_sublist _).trans (List.filter_sublist _)
  have hup_nodup :
      ((MemoryStore.upcoming_deadlines st).map (fun c => c.id)).Nodup := by
    have h1 : (((st.filter (fun c => !c.paused)).filter
        (fun c => !c.late)).map (fun c => c.id)).Nodup :=
      (hactive_subl.map _).nodup hnd
    exact (((upcoming_deadlines_perm st).map _).nodup_iff).mpr h1
  have hP_nodup :
      (((MemoryStore.upcoming_deadlines st).takeWhile
          (fun c => decide (c.deadline.getD 0 ≤ now))).map
        (fun c => c.id)).Nodup :=
    (hsubl.map _).nodup hup_nodup
  -- membership in the processed prefix, for canaries of the store
  have hmem : ∀ c ∈ st,
      (c.id ∈ ((MemoryStore.upcoming_deadlines st).takeWhile
          (fun c => decide (c.deadline.getD 0 ≤ now))).map
        (fun x => x.id) ↔
      (c.paused = false ∧ c.late = false ∧ c.deadline.getD 0 ≤ now)) := by
    intro c hc
    constructor
    · intro hid
      obtain ⟨c', hc'P, hc'id⟩ := List.mem_map.mp hid
      have hc'up : c' ∈ MemoryStore.upcoming_deadlines st :=
        List.Sublist.mem hc'P hsubl
      have hc'st := (mem_upcoming_deadlines st c').mp hc'up
      have hc'd : c'.deadline.getD 0 ≤ now :=
        of_decide_eq_true
          (@List.mem_takeWhile_imp _
            (fun x : Canary => decide (x.deadline.getD 0 ≤ now)) _ _ hc'P)
      have hcc' : c' = c :=
        List.inj_on_of_nodup_map hnd hc'st.1 hc hc'id
      rw [← hcc']
      exact ⟨hc'st.2.1, hc'st.2.2, hc'd⟩
    · rintro ⟨hp, hl, hd⟩
      refine List.mem_map_of_mem _ ?_
      exact mem_takeWhile_of_sorted now _ hsorted c
        ((mem_upcoming_deadlines st c).mpr ⟨hc, hp, hl⟩) hd
  unfold BusinessLogic.deadline_handler
  rw [hgo]
  refine ⟨?_, by simp, ?_, rfl, ?_⟩
  · show List.foldl _ st _ = _
    rw [foldl_update_eq_map _ _ st hP_nodup]
    apply List.map_congr_left
    intro c hc
    by_cases hcond : c.paused = false ∧ c.late = false ∧
        c.deadline.getD 0 ≤ now
    · rw [if_pos ((hmem c hc).mpr hcond), if_pos hcond]
    · rw [if_neg (fun h => hcond ((hmem c hc).mp h)), if_neg hcond]
  · show List.Pairwise _ (List.reverse [] ++ _)
    rw [List.reverse_nil, List.nil_append]
    rw [List.pairwise_map]
    exact (List.Pairwise.sublist hsubl hsorted).imp (fun h => h)
  · intro c' hc'
    rw [List.reverse_nil, List.nil_append] at hc'
    obtain ⟨c'', hc''P, hc''eq⟩ := List.mem_map.mp hc'
    have hc''up : c'' ∈ MemoryStore.upcoming_deadlines st :=
      List.Sublist.mem hc''P hsubl
    have hc''st := (mem_upcoming_deadlines st c'').mp hc''up
    have hc''d : c''.deadline.getD 0 ≤ now :=
      of_decide_eq_true
        (@List.mem_takeWhile_imp _
          (fun x : Canary => decide (x.deadline.getD 0 ≤ now)) _ _ hc''P)
    have hne : c''.deadline ≠ none := by
      intro hnone
      have := (hinv c'' hc''st.1).mpr hnone
      rw [hc''st.2.1] at this
      cases this
    obtain ⟨d, hd⟩ := Option.ne_none_iff_exists'.mp hne
    refine ⟨d, ?_, ?_⟩
    · rw [← hc''eq]
      show c''.deadline = some d
      exact hd
    · rw [hd] at hc''d
      simpa using hc''d

/-- C2 witness: a store holding a canary past its deadline at time 10
and one with a later deadline; the handler marks the first late and
rearms on the second. -/
theorem deadline_handler_spec_witness :
    ((([canaryW2b, canaryW2a] : Store).map (fun c => c.id)).Nodup) ∧
    (∀ c ∈ ([canaryW2b, canaryW2a] : Store),
      c.paused = true ↔ c.deadline = none) ∧
    (BusinessLogic.deadline_handler [canaryW2b, canaryW2a] 10).1 =
      ([canaryW2b, canaryW2a] : Store).map (fun c =>
        if c.paused = false ∧ c.late = false ∧ c.deadline.getD 0 ≤ 10
        then applyPatch c { late := some true } else c) ∧
    (BusinessLogic.deadline_handler [canaryW2b, canaryW2a] 10).2.2 =
      (((MemoryStore.upcoming_deadlines
          ([canaryW2b, canaryW2a] : Store)).dropWhile
          (fun c => decide (c.deadline.getD 0 ≤ 10))).head?).map
        (fun c => c.deadline.getD 0) :=
  ⟨by decide, by decide,
    (deadline_handler_spec [canaryW2b, canaryW2a] 10 (by decide)
      (by decide)).1,
    (deadline_handler_spec [canaryW2b, canaryW2a] 10 (by decide)
      (by decide)).2.2.2.1⟩

/-! ## C3: the paused ⇔ deadline-absent invariant -/

theorem inv_after_update (st : Store) (identifier : String) (p : Patch)
    (c₀ : Canary)
    (hnd : (st.map (fun c => c.id)).Nodup)
    (hinv : ∀ c ∈ st, c.paused = true ↔ c.deadline = none)
    (hget : MemoryStore.get st identifier = some c₀)
    (hp : ((applyPatch c₀ p).paused = true ↔ (applyPatch c₀ p).deadline =
      none)) :
    ∀ c' ∈ MemoryStore.update st identifier p,
      c'.paused = true ↔ c'.deadline = none := by
  intro c' hc'
  unfold MemoryStore.update at hc'
  obtain ⟨c, hc, hceq⟩ := List.mem_map.mp hc'
  by_cases hcid : c.id = identifier
  · have hc₀st : c₀ ∈ st := List.mem_of_find?_eq_some hget
    have hc₀id : c₀.id = identifier := by simpa using List.find?_some hget
    have hcc₀ : c = c₀ :=
      List.inj_on_of_nodup_map hnd hc hc₀st (by rw [hcid, hc₀id])
    rw [← hceq, if_pos hcid, hcc₀]
    exact hp
  · rw [← hceq, if_neg hcid]
    exact hinv c hc

theorem update_periodicity_step_shape (canary : Canary)
    (pArg : Option Periodicity) (now : Int) (pu : Option Periodicity)
    (du : Option (Option Int)) (lu : Option Bool)
    (h : BusinessLogic.update_periodicity_step canary pArg now =
      some (pu, du, lu)) :
    du = none ∨ (∃ d, du = some (some d) ∧ canary.paused = false) := by
  unfold BusinessLogic.update_periodicity_step at h
  split at h
  · simp only [Option.some.injEq, Prod.mk.injEq] at h
    exact Or.inl h.2.1.symm
  · split at h
    · simp only [Option.some.injEq, Prod.mk.injEq] at h
      exact Or.inl h.2.1.symm
    · split at h
      · exact Option.noConfusion h
      · split at h
        · simp only [Option.some.injEq, Prod.mk.injEq] at h
          exact Or.inl h.2.1.symm
        · rename_i hpaused
          split at h
          · exact Option.noConfusion h
          · split at h
            · exact Option.noConfusion h
            · have hpf : canary.paused = false := by
                simpa using hpaused
              dsimp only at h
              split at h <;>
                (simp only [Option.some.injEq, Prod.mk.injEq] at h
                 exact Or.inr ⟨_, h.2.1.symm, hpf⟩)

theorem handler_go_inv (now : Int) :
    ∀ (l : List Canary) (st : Store) (acc : List Canary),
      (∀ c ∈ st, c.paused = true ↔ c.deadline = none) →
      ∀ c' ∈ (BusinessLogic.deadline_handler_go now l st acc).1,
        c'.paused = true ↔ c'.deadline = none := by
  intro l
  induction l with
  | nil =>
    intro st acc hinv
    unfold BusinessLogic.deadline_handler_go
    exact hinv
  | cons c rest ih =>
    intro st acc hinv
    unfold BusinessLogic.deadline_handler_go
    by_cases hc : c.deadline.getD 0 ≤ now
    · rw [if_pos hc]
      refine ih _ _ ?_
      intro x hx
      unfold MemoryStore.update at hx
      obtain ⟨y, hy, hyeq⟩ := List.mem_map.mp hx
      rw [← hyeq]
      by_cases hyid : y.id = c.id
      · rw [if_pos hyid]
        exact hinv y hy
      · rw [if_neg hyid]
        exact hinv y hy
    · rw [if_neg hc]
      exact hinv

/-- C3: the invariant `paused = true ⇔ deadline absent` holds for every
canary in the store after any committed mutating operation — create,
update, trigger, pause, unpause, or the deadline handler's late-marking
— provided it held before (and ids are unique, as the id sampler and
the dict keying guarantee). -/
theorem paused_iff_deadline_absent_invariant (st st' : Store)
    (hnd : (st.map (fun c => c.id)).Nodup)
    (hinv : ∀ c ∈ st, c.paused = true ↔ c.deadline = none)
    (hstep : BLStep st st') :
    ∀ c' ∈ st', c'.paused = true ↔ c'.deadline = none := by
  rcases hstep with
    ⟨newId, now, name, p, description, emails, paused, c, hp⟩ |
    ⟨identifier, nameArg, pArg, descriptionArg, emailsArg, now, c, hp⟩ |
    ⟨identifier, comment, now, wl, wp, hp⟩ |
    ⟨identifier, comment, now, c, hp⟩ |
    ⟨identifier, comment, now, c, hp⟩ |
    ⟨now, hp⟩
  · -- create
    unfold BusinessLogic.create at hp
    by_cases h1 : (MemoryStore.get st newId).isSome = true
    · rw [if_pos h1] at hp
      exact Option.noConfusion hp
    · rw [if_neg h1] at hp
      by_cases h2 : name = ""
      · rw [if_pos h2] at hp
        exact Option.noConfusion hp
      · rw [if_neg h2] at hp
        cases hf : MemoryStore.find_identifier st (BusinessLogic.slug name)
            with
        | some conflict => rw [hf] at hp; exact Option.noConfusion hp
        | none =>
          rw [hf] at hp
          cases hcalc : calculate_periodicity_delta p now with
          | none => rw [hcalc] at hp; exact Option.noConfusion hp
          | some delta =>
            rw [hcalc] at hp
            injection hp with hp1
            have hst := congrArg Prod.fst hp1
            dsimp only at hst
            rw [← hst]
            unfold MemoryStore.create
            have hnone : MemoryStore.get st newId = none :=
              Option.not_isSome_iff_eq_none.mp (fun hs => h1 hs)
            have hany : ¬((st.any (fun x => x.id = newId)) = true) := by
              intro ha
              obtain ⟨x, hx, hpx⟩ := List.any_eq_true.mp ha
              have : MemoryStore.get st newId ≠ none := by
                unfold MemoryStore.get
                intro hfind
                rw [List.find?_eq_none] at hfind
                exact hfind x hx hpx
              exact this hnone
            rw [if_neg hany]
            intro c' hc'
            rcases List.mem_append.mp hc' with hmem | hmem
            · exact hinv c' hmem
            · rcases List.mem_singleton.mp hmem with rfl
              cases paused <;> simp
  · -- update
    unfold BusinessLogic.update at hp
    cases hget : MemoryStore.get st identifier with
    | none => rw [hget] at hp; exact Option.noConfusion hp
    | some canary =>
      rw [hget] at hp
      dsimp only at hp
      cases hns : BusinessLogic.update_name_step st canary nameArg with
      | none => rw [hns] at hp; exact Option.noConfusion hp
      | some nu =>
        rw [hns] at hp
        cases hps : BusinessLogic.update_periodicity_step canary pArg now with
        | none => rw [hps] at hp; exact Option.noConfusion hp
        | some pu =>
          rw [hps] at hp
          rcases nu with ⟨nameUpd, slugUpd⟩
          rcases pu with ⟨periodicityUpd, deadlineUpd, lateUpd⟩
          dsimp only at hp
          split at hp
          · exact Option.noConfusion hp
          · injection hp with hp1
            have hst := congrArg Prod.fst hp1
            dsimp only at hst
            rw [← hst]
            refine inv_after_update st identifier _ canary hnd hinv hget ?_
            rcases update_periodicity_step_shape canary pArg now
                periodicityUpd deadlineUpd lateUpd hps with hdu | ⟨d, hdu, hpf⟩
            · show canary.paused = true ↔ deadlineUpd.getD canary.deadline =
                none
              rw [hdu]
              exact hinv canary (List.mem_of_find?_eq_some hget)
            · show canary.paused = true ↔ deadlineUpd.getD canary.deadline =
                none
              rw [hdu, hpf]
              simp
  · -- trigger
    unfold BusinessLogic.trigger at hp
    cases hget : MemoryStore.get st identifier with
    | none => rw [hget] at hp; exact Option.noConfusion hp
    | some canary =>
      rw [hget] at hp
      dsimp only at hp
      split at hp
      · exact Option.noConfusion hp
      · split at hp
        · exact Option.noConfusion hp
        · injection hp with hp1
          have hst := congrArg Prod.fst hp1
          dsimp only at hst
          rw [← hst]
          refine inv_after_update st identifier _ canary hnd hinv hget ?_
          show (if canary.paused = true then some false
              else none).getD canary.paused = true ↔ some _ = none
          cases hcp : canary.paused <;> simp
  · -- pause
    unfold BusinessLogic.pause at hp
    cases hget : MemoryStore.get st identifier with
    | none => rw [hget] at hp; exact Option.noConfusion hp
    | some canary =>
      rw [hget] at hp
      dsimp only at hp
      by_cases hcp : canary.paused = true
      · rw [if_pos hcp] at hp
        exact Option.noConfusion hp
      · rw [if_neg hcp] at hp
        injection hp with hp1
        have hst := congrArg Prod.fst hp1
        dsimp only at hst
        rw [← hst]
        refine inv_after_update st identifier _ canary hnd hinv hget ?_
        simp [applyPatch]
  · -- unpause
    unfold BusinessLogic.unpause at hp
    cases hget : MemoryStore.get st identifier with
    | none => rw [hget] at hp; exact Option.noConfusion hp
    | some canary =>
      rw [hget] at hp
      dsimp only at hp
      by_cases hcp : (!canary.paused) = true
      · rw [if_pos hcp] at hp
        exact Option.noConfusion hp
      · rw [if_neg hcp] at hp
        split at hp
        · exact Option.noConfusion hp
        · split at hp
          · exact Option.noConfusion hp
          · injection hp with hp1
            have hst := congrArg Prod.fst hp1
            dsimp only at hst
            rw [← hst]
            refine inv_after_update st identifier _ canary hnd hinv hget ?_
            simp [applyPatch]
  · -- deadline handler
    rw [hp]
    exact handler_go_inv now (MemoryStore.upcoming_deadlines st) st [] hinv

/-- C3 witness: creating a canary in an empty store preserves the
invariant. -/
theorem paused_iff_deadline_absent_invariant_witness :
    ((([] : Store).map (fun c => c.id)).Nodup) ∧
    (∀ c ∈ ([] : Store), c.paused = true ↔ c.deadline = none) ∧
    BLStep [] [canaryW3] ∧
    (∀ c' ∈ ([canaryW3] : Store), c'.paused = true ↔ c'.deadline = none) := by
  refine ⟨by decide, by simp, ?_, ?_⟩
  · exact Or.inl ⟨"abcdefgh", 0, "Foo", .numeric 60, "", [], false, canaryW3,
      by decide⟩
  · exact paused_iff_deadline_absent_invariant [] [canaryW3] (by decide)
      (by simp)
      (Or.inl ⟨"abcdefgh", 0, "Foo", .numeric 60, "", [], false, canaryW3,
        by decide⟩)

end CoalMine
